import Mathlib

/-!
Verification of the color-table store (an append-only fragment table with a
generation registry) against its natural-language specification.

The embedding below translates the Rust sources:
  * src/color_table.rs  — the fragment table, write path, mmap read path
  * src/generations.rs  — the generation registry (interval map + state)

Machine integers (u32 fragment indices, u64 generation numbers) are modelled
as Nat: in debug builds the source uses checked addition that panics on
overflow, and no claim approaches 2^32 fragments.  The rangemap crate's
RangeMap is modelled as a sorted list of disjoint, coalesced, non-empty
half-open ranges, with insert/remove implementing the crate's documented
semantics (overlapping parts of stored ranges are truncated or replaced, and
touching or overlapping ranges holding the same value are coalesced).
bincode serialization of the registry sidecar is abstracted as the pair
(state, list of (start, end, generation) triples) that the repository's own
Encode/Decode impls produce and consume; the byte-level varint coding is an
injective external-crate concern.
-/

/-- A color fragment record: parent pointer (0 = chain root) and 32 bits of
color payload.  Mirrors struct ColorFragment in src/color_table.rs. -/
structure ColorFragment where
  parent_pointer : Nat
  color : Nat
deriving Repr, DecidableEq

/-- The 8-byte magic header of the table file, read as a fragment record:
bytes CTBL as a little-endian u32 parent pointer and the version bytes
00 00 00 01 as a little-endian u32 color.  Mirrors TABLE_MAGIC. -/
def TABLE_MAGIC : ColorFragment :=
  { parent_pointer := 0x4C425443, color := 0x01000000 }

/-- Registry state.  Mirrors enum GenerationState in src/generations.rs
(None = fresh, Ended = closed, InProgress = open). -/
inductive GenerationState where
  | None : GenerationState
  | Ended : Nat → GenerationState
  | InProgress : Nat → Nat → GenerationState
deriving Repr, DecidableEq

/-- Errors of the store.  Mirrors the variants of ColorTableError in
src/lib.rs that the modelled code paths can produce. -/
inductive CTErr where
  | InvalidColorId : Nat → CTErr
  | InvalidGeneration : Nat → CTErr
  | InvalidGenerationState : CTErr
  | Deserialization : CTErr
  | Corrupt : CTErr
deriving Repr, DecidableEq

/-- Model of rangemap::RangeMap removal of the interval [s, e): every stored
range keeps only its parts outside [s, e). -/
def rangeCut (s e : Nat) : List (Nat × Nat × Nat) → List (Nat × Nat × Nat)
  | [] => []
  | (a, b, w) :: rest =>
    ((if a < min s b then [(a, min s b, w)] else []) ++
      (if max e a < b then [(max e a, b, w)] else [])) ++ rangeCut s e rest

/-- Coalescing of an inserted range starting at s with its left neighbour:
if the last surviving range to the left touches s and holds the same value,
it is absorbed (the inserted range's start moves down to its start). -/
def coalesceLeft (s v : Nat) (lefts : List (Nat × Nat × Nat)) :
    Nat × List (Nat × Nat × Nat) :=
  match lefts.getLast? with
  | some (a, b, w) =>
    if b = s ∧ w = v then (a, lefts.dropLast) else (s, lefts)
  | Option.none => (s, lefts)

/-- Coalescing of an inserted range ending at e with its right neighbour:
if the first surviving range to the right starts at e and holds the same
value, it is absorbed (the inserted range's end moves up to its end). -/
def coalesceRight (e v : Nat) (rights : List (Nat × Nat × Nat)) :
    Nat × List (Nat × Nat × Nat) :=
  match rights.head? with
  | some (a, b, w) =>
    if a = e ∧ w = v then (b, rights.tail) else (e, rights)
  | Option.none => (e, rights)

/-- Model of rangemap::RangeMap insertion of [s, e) ↦ v into a sorted map:
overlapping parts of stored ranges are removed, and the new range is
coalesced with touching neighbours that hold the same value. -/
def rangeMapInsert (s e v : Nat) (m : List (Nat × Nat × Nat)) :
    List (Nat × Nat × Nat) :=
  (coalesceLeft s v ((rangeCut s e m).filter (fun r => decide (r.2.1 ≤ s)))).2 ++
    ((coalesceLeft s v ((rangeCut s e m).filter (fun r => decide (r.2.1 ≤ s)))).1,
      (coalesceRight e v ((rangeCut s e m).filter (fun r => decide (e ≤ r.1)))).1,
      v) ::
    (coalesceRight e v ((rangeCut s e m).filter (fun r => decide (e ≤ r.1)))).2

/-- The generation registry: an interval map from fragment-index ranges to
generation numbers plus a state.  Mirrors struct Generations. -/
structure Generations where
  ranges : List (Nat × Nat × Nat)
  state : GenerationState
deriving Repr, DecidableEq

/-- Mirrors Generations::new. -/
def Generations.new : Generations :=
  { ranges := [], state := GenerationState.None }

/-- Mirrors Generations::last_range_end (end of the last stored range). -/
def Generations.last_range_end (g : Generations) : Option Nat :=
  g.ranges.getLast?.map (fun r => r.2.1)

/-- Mirrors Generations::current_generation. -/
def Generations.current_generation (g : Generations) : Option Nat :=
  match g.state with
  | GenerationState.InProgress gen _ => some gen
  | _ => Option.none

/-- Option::is_some_and on an optional number. -/
def optAny (p : Nat → Bool) : Option Nat → Bool
  | some l => p l
  | Option.none => false

/-- Mirrors Generations::start_new_generation_at.  Note the None (fresh)
branch in the source demands head == 0. -/
def Generations.start_new_generation_at (g : Generations) (head gen : Nat) :
    Except CTErr Generations :=
  match g.state with
  | GenerationState.None =>
    if head ≠ 0 then Except.error CTErr.InvalidGenerationState
    else
      Except.ok { ranges := rangeMapInsert head (head + 1) gen g.ranges,
                  state := GenerationState.InProgress gen head }
  | GenerationState.Ended last =>
    if last < gen then
      if optAny (fun l => decide (head < l)) g.last_range_end then
        Except.error CTErr.InvalidGenerationState
      else
        Except.ok { ranges := rangeMapInsert head (head + 1) gen g.ranges,
                    state := GenerationState.InProgress gen head }
    else Except.error (CTErr.InvalidGeneration gen)
  | GenerationState.InProgress _ _ =>
    Except.error (CTErr.InvalidGeneration gen)

/-- Mirrors Generations::end_current_generation_at: widen the singleton
recorded at start to [old_head, head), or remove it if nothing was appended. -/
def Generations.end_current_generation_at (g : Generations) (head : Nat) :
    Except CTErr Generations :=
  match g.state with
  | GenerationState.InProgress gen old_head =>
    if old_head < head then
      Except.ok { ranges := rangeMapInsert old_head head gen g.ranges,
                  state := GenerationState.Ended gen }
    else
      Except.ok { ranges := rangeCut old_head (old_head + 1) g.ranges,
                  state := GenerationState.Ended gen }
  | _ => Except.error CTErr.InvalidGenerationState

/-- RangeMap::get on the list-of-ranges model: the value of the range
containing idx, if any. -/
def rangesFind (m : List (Nat × Nat × Nat)) (idx : Nat) : Option Nat :=
  (m.find? (fun r => decide (r.1 ≤ idx ∧ idx < r.2.1))).map (fun r => r.2.2)

/-- Mirrors Generations::find (RangeMap::get): the generation whose range
contains idx. -/
def Generations.find (g : Generations) (idx : Nat) : Option Nat :=
  rangesFind g.ranges idx

/-- Mirrors the Encode impl for Generations: the sidecar carries the state
and the list of (start, end, generation) triples in map order. -/
def Generations.encode (g : Generations) :
    GenerationState × List (Nat × Nat × Nat) :=
  (g.state, g.ranges)

/-- Mirrors the Decode impl for Generations: reinsert all triples into a
fresh RangeMap, then verify the rebuilt map iterates exactly as the decoded
vector (zip + all, as in the source); any mismatch is a corruption error. -/
def Generations.decode (d : GenerationState × List (Nat × Nat × Nat)) :
    Except CTErr Generations :=
  let rebuilt :=
    d.2.foldl (fun m r => rangeMapInsert r.1 r.2.1 r.2.2 m) []
  if (rebuilt.zip d.2).all (fun p => decide (p.1 = p.2)) then
    Except.ok { ranges := rebuilt, state := d.1 }
  else Except.error CTErr.Deserialization

/-- In-memory state of the store: the fragments written so far (the record
at file index i + 1 is frags.get? i; index 0 is the magic header), the head
index of the next free slot, and the registry.  Mirrors struct ColorTable
(the user-space write buffer is abstracted: flush does not change the
logical file contents). -/
structure TState where
  frags : List ColorFragment
  head : Nat
  gens : Generations
deriving Repr, DecidableEq

/-- Mirrors ColorTable::new: empty table, head = 1, fresh registry. -/
def ColorTable.new : TState :=
  { frags := [], head := 1, gens := Generations.new }

/-- Mirrors ColorTable::write_fragment: returns the current head as the new
fragment's index, appends the record, increments head. -/
def write_fragment (s : TState) (f : ColorFragment) : Nat × TState :=
  (s.head, { frags := s.frags ++ [f], head := s.head + 1, gens := s.gens })

/-- Mirrors ColorTable::head_fragment_index: ids strictly below the current
head are valid. -/
def head_fragment_index (head color_id : Nat) : Option Nat :=
  if color_id < head then some color_id else Option.none

/-- Mirrors GenerationGuard::new_color_class: append a root fragment. -/
def new_color_class (s : TState) (color : Nat) : Except CTErr (Nat × TState) :=
  Except.ok (write_fragment s { parent_pointer := 0, color := color })

/-- Mirrors GenerationGuard::fork_color_class: validate the parent id, then
append a fragment pointing at it. -/
def fork_color_class (s : TState) (parent color : Nat) :
    Except CTErr (Nat × TState) :=
  match head_fragment_index s.head parent with
  | Option.none => Except.error (CTErr.InvalidColorId parent)
  | some parent_idx =>
    Except.ok (write_fragment s { parent_pointer := parent_idx, color := color })

/-- Mirrors GenerationGuard::extend_color_class: validate the parent id, then
append a fragment pointing at it. -/
def extend_color_class (s : TState) (parent color : Nat) :
    Except CTErr (Nat × TState) :=
  match head_fragment_index s.head parent with
  | Option.none => Except.error (CTErr.InvalidColorId parent)
  | some parent_idx =>
    Except.ok (write_fragment s { parent_pointer := parent_idx, color := color })

/-- One operation of the user closure passed to with_generation. -/
inductive Cmd where
  | newClass : Nat → Cmd
  | fork : Nat → Nat → Cmd
  | extend : Nat → Nat → Cmd
deriving Repr, DecidableEq

/-- Run one GenerationGuard operation. -/
def runCmd (s : TState) : Cmd → Except CTErr (Nat × TState)
  | Cmd.newClass c => new_color_class s c
  | Cmd.fork p c => fork_color_class s p c
  | Cmd.extend p c => extend_color_class s p c

/-- Run the user closure: each command's result is collected; a failed
command leaves the state unchanged and the closure continues. -/
def runCmds : TState → List Cmd → List (Except CTErr Nat) × TState
  | s, [] => ([], s)
  | s, c :: cs =>
    match runCmd s c with
    | Except.ok (id, s1) =>
      let r := runCmds s1 cs
      (Except.ok id :: r.1, r.2)
    | Except.error e =>
      let r := runCmds s cs
      (Except.error e :: r.1, r.2)

/-- The tail of with_generation after the closure ran: end the generation at
the new head and flush (the buffer is abstracted). -/
def finish_generation (r : List (Except CTErr Nat) × TState) :
    TState × Except CTErr (List (Except CTErr Nat)) :=
  match r.2.gens.end_current_generation_at r.2.head with
  | Except.error e => (r.2, Except.error e)
  | Except.ok g2 =>
    ({ frags := r.2.frags, head := r.2.head, gens := g2 }, Except.ok r.1)

/-- Mirrors ColorTable::with_generation: start the generation at the current
head (propagating a start failure before running the closure), run the
closure, end the generation at the new head, flush.  Returns the resulting
state together with the outcome. -/
def with_generation (s : TState) (gen : Nat) (cmds : List Cmd) :
    TState × Except CTErr (List (Except CTErr Nat)) :=
  match s.gens.start_new_generation_at s.head gen with
  | Except.error e => (s, Except.error e)
  | Except.ok g1 =>
    finish_generation (runCmds { frags := s.frags, head := s.head, gens := g1 } cmds)

/-- The file contents seen by a memory map taken now: the magic header at
index 0 followed by every written fragment.  Mirrors ColorTable::map /
ColorTableMmap::as_fragments (map flushes first; the buffer is abstracted). -/
def mmapFragments (s : TState) : List ColorFragment :=
  TABLE_MAGIC :: s.frags

/-- Mirrors ColorTableMmap::get_fragment: plain bounds-checked slice access. -/
def get_fragment (snap : List ColorFragment) (idx : Nat) :
    Option ColorFragment :=
  snap.get? idx

/-- Mirrors MmapGuard::fragment: index 0 is never a real fragment. -/
def fragment (snap : List ColorFragment) (idx : Nat) : Option ColorFragment :=
  if idx = 0 then Option.none else get_fragment snap idx

/-- The chain of fragment indices visited by ClassIter::next starting at idx:
stop on index 0 or out of the mapping, otherwise follow parent_pointer.
fuel bounds the recursion; fuel = idx is exhaustive whenever parents precede
children (chainF_stable below). -/
def chainF (snap : List ColorFragment) : Nat → Nat → List Nat
  | 0, _ => []
  | Nat.succ fuel, idx =>
    match fragment snap idx with
    | Option.none => []
    | some f => idx :: chainF snap fuel f.parent_pointer

/-- The full visited-index chain of a class whose head fragment is startIdx. -/
def class_chain (snap : List ColorFragment) (startIdx : Nat) : List Nat :=
  chainF snap startIdx startIdx

/-- Mirrors MmapGuard::color_class composed with ClassIter: the start index
is the validated id (an invalid id degrades to 0, the empty iterator), and
the iterator walks parent pointers from there.  head is the table's current
head (the source reads it live from the table, not from the mapping). -/
def color_class (head : Nat) (snap : List ColorFragment) (color_id : Nat) :
    List Nat :=
  class_chain snap ((head_fragment_index head color_id).getD 0)

/-- The (color, generation) pairs yielded by ClassIter for a class: one pair
per visited fragment, the generation looked up in the registry (none models
the iterator's missing-generation panic branch). -/
def class_pairs (gens : Generations) (head : Nat) (snap : List ColorFragment)
    (color_id : Nat) : List (Nat × Option Nat) :=
  (color_class head snap color_id).map
    (fun i => (((fragment snap i).map ColorFragment.color).getD 0, gens.find i))

/-- Mirrors ColorTable::sync: flush the table file and serialize the registry
sidecar.  Returns (sidecar contents, table file contents). -/
def sync (s : TState) :
    (GenerationState × List (Nat × Nat × Nat)) × List ColorFragment :=
  (Generations.encode s.gens, mmapFragments s)

/-- Mirrors ColorTable::load: check the magic header, derive head from the
file length in records, decode the registry sidecar. -/
def load (sidecar : GenerationState × List (Nat × Nat × Nat))
    (file : List ColorFragment) : Except CTErr TState :=
  match file with
  | [] => Except.error CTErr.Corrupt
  | magic :: rest =>
    if magic = TABLE_MAGIC then
      match Generations.decode sidecar with
      | Except.ok g =>
        Except.ok { frags := rest, head := file.length, gens := g }
      | Except.error e => Except.error e
    else Except.error CTErr.Corrupt

/-! ## Invariants -/

/-- Parents precede children: the fragment stored at list position i (file
index i + 1) has parent pointer 0 or a pointer strictly below its own file
index. -/
def PPInv (frags : List ColorFragment) : Prop :=
  ∀ i, i < frags.length →
    (frags.getD i TABLE_MAGIC).parent_pointer = 0 ∨
      (frags.getD i TABLE_MAGIC).parent_pointer < i + 1

/-- The order relation between consecutive stored ranges: disjoint in order,
and not coalescable (touching ranges hold distinct values). -/
def rangesRel (r r' : Nat × Nat × Nat) : Prop :=
  r.2.1 ≤ r'.1 ∧ (r.2.1 = r'.1 → r.2.2 ≠ r'.2.2)

instance : DecidableRel rangesRel := fun r r' =>
  inferInstanceAs (Decidable (r.2.1 ≤ r'.1 ∧ (r.2.1 = r'.1 → r.2.2 ≠ r'.2.2)))

/-- Executable check for List.Chain' rangesRel, used for decidability. -/
def chainB : List (Nat × Nat × Nat) → Bool
  | [] => true
  | [_] => true
  | r :: r' :: rest => decide (rangesRel r r') && chainB (r' :: rest)

theorem chainB_iff (m : List (Nat × Nat × Nat)) :
    chainB m = true ↔ List.Chain' rangesRel m := by
  induction m with
  | nil => simp [chainB]
  | cons r tail ih =>
    cases tail with
    | nil => simp [chainB]
    | cons r' rest =>
      rw [List.chain'_cons, ← ih]
      simp [chainB]

instance (priority := 1001) (m : List (Nat × Nat × Nat)) :
    Decidable (List.Chain' rangesRel m) :=
  decidable_of_decidable_of_iff (chainB_iff m)

/-- Well-formed range list bounded by head: every range is non-empty and
ends at or before head, and consecutive ranges satisfy rangesRel. -/
def rangesWF (head : Nat) (m : List (Nat × Nat × Nat)) : Prop :=
  (∀ r ∈ m, r.1 < r.2.1 ∧ r.2.1 ≤ head) ∧ List.Chain' rangesRel m

/-- Every real fragment index below head lies in some recorded range. -/
def covWF (head : Nat) (m : List (Nat × Nat × Nat)) : Prop :=
  ∀ i, i < head → 1 ≤ i → (rangesFind m i).isSome

/-- State-dependent part of the registry invariant between operations: a
fresh registry is empty (at head 1, the table's initial head), a closed
registry's values are bounded by the last generation number, and no
generation is left open between operations. -/
def stateWF (head : Nat) (g : Generations) : Prop :=
  match g.state with
  | GenerationState.None => g.ranges = [] ∧ head = 1
  | GenerationState.Ended last => ∀ r ∈ g.ranges, r.2.2 ≤ last
  | GenerationState.InProgress _ _ => False

/-- The full inter-operation invariant of the store: head counts the
written fragments plus the header slot, parents precede children, and the
registry is well-formed, all-ended, and covers every written fragment. -/
def WF (s : TState) : Prop :=
  s.head = s.frags.length + 1 ∧ PPInv s.frags ∧
    rangesWF s.head s.gens.ranges ∧ stateWF s.head s.gens ∧
    covWF s.head s.gens.ranges

instance (frags : List ColorFragment) : Decidable (PPInv frags) :=
  inferInstanceAs (Decidable (∀ i, i < frags.length →
    (frags.getD i TABLE_MAGIC).parent_pointer = 0 ∨
      (frags.getD i TABLE_MAGIC).parent_pointer < i + 1))

instance (head : Nat) (m : List (Nat × Nat × Nat)) :
    Decidable (rangesWF head m) :=
  inferInstanceAs
    (Decidable ((∀ r ∈ m, r.1 < r.2.1 ∧ r.2.1 ≤ head) ∧ List.Chain' rangesRel m))

instance (head : Nat) (m : List (Nat × Nat × Nat)) :
    Decidable (covWF head m) :=
  inferInstanceAs (Decidable (∀ i, i < head → 1 ≤ i → (rangesFind m i).isSome))

instance (head : Nat) (g : Generations) : Decidable (stateWF head g) :=
  match g with
  | ⟨m, GenerationState.None⟩ =>
    inferInstanceAs (Decidable (m = [] ∧ head = 1))
  | ⟨m, GenerationState.Ended last⟩ =>
    inferInstanceAs (Decidable (∀ r ∈ m, r.2.2 ≤ last))
  | ⟨_, GenerationState.InProgress _ _⟩ =>
    inferInstanceAs (Decidable False)

instance (s : TState) : Decidable (WF s) :=
  inferInstanceAs (Decidable (s.head = s.frags.length + 1 ∧ PPInv s.frags ∧
    rangesWF s.head s.gens.ranges ∧ stateWF s.head s.gens ∧
    covWF s.head s.gens.ranges))

/-- A small concrete store, as produced by: generation 0 creating classes 1
and 2, then generation 1 extending class 1 (fragment 3 points at 1). -/
def exampleTable : TState :=
  { frags := [{ parent_pointer := 0, color := 10 },
              { parent_pointer := 0, color := 11 },
              { parent_pointer := 1, color := 12 }],
    head := 4,
    gens := { ranges := [(1, 3, 0), (3, 4, 1)],
              state := GenerationState.Ended 1 } }


/-! ## Range-map lemmas -/

theorem rangeCut_all_left (s e : Nat) (m : List (Nat × Nat × Nat))
    (hse : s < e) (hm : ∀ r ∈ m, r.1 < r.2.1 ∧ r.2.1 ≤ s) :
    rangeCut s e m = m := by
  induction m with
  | nil => rfl
  | cons r rest ih =>
    obtain ⟨a, b, w⟩ := r
    obtain ⟨h1, h2⟩ := hm _ (List.mem_cons_self _ _)
    simp only at h1 h2
    have hmin : min s b = b := Nat.min_eq_right h2
    have hmax : ¬ (max e a < b) := by
      have := Nat.le_max_left e a
      omega
    simp only [rangeCut, hmin, if_pos h1, if_neg hmax,
      ih (fun r hr => hm r (List.mem_cons_of_mem _ hr))]
    simp

theorem rangeCut_append (s e : Nat) (l1 l2 : List (Nat × Nat × Nat)) :
    rangeCut s e (l1 ++ l2) = rangeCut s e l1 ++ rangeCut s e l2 := by
  induction l1 with
  | nil => rfl
  | cons r rest ih =>
    obtain ⟨a, b, w⟩ := r
    simp only [List.cons_append, rangeCut, List.append_eq, ih, List.append_assoc]

theorem rangeCut_inner (s e a b w : Nat) (h1 : s ≤ a) (h2 : b ≤ e) :
    rangeCut s e [(a, b, w)] = [] := by
  have hc1 : ¬ (a < min s b) := by
    have := Nat.min_le_left s b
    omega
  have hc2 : ¬ (max e a < b) := by
    have := Nat.le_max_left e a
    omega
  simp only [rangeCut, if_neg hc1, if_neg hc2]
  rfl

theorem filter_left_all (s : Nat) (m : List (Nat × Nat × Nat))
    (h : ∀ r ∈ m, r.2.1 ≤ s) :
    m.filter (fun r => decide (r.2.1 ≤ s)) = m := by
  induction m with
  | nil => rfl
  | cons r rest ih =>
    rw [List.filter_cons_of_pos]
    · rw [ih (fun r hr => h r (List.mem_cons_of_mem _ hr))]
    · exact decide_eq_true (h r (List.mem_cons_self _ _))

theorem filter_right_none (e : Nat) (m : List (Nat × Nat × Nat))
    (h : ∀ r ∈ m, r.1 < e) :
    m.filter (fun r => decide (e ≤ r.1)) = [] := by
  induction m with
  | nil => rfl
  | cons r rest ih =>
    rw [List.filter_cons_of_neg]
    · exact ih (fun r hr => h r (List.mem_cons_of_mem _ hr))
    · simp only [decide_eq_true_eq]
      have := h r (List.mem_cons_self _ _)
      omega

theorem coalesceLeft_stay (s v : Nat) (m : List (Nat × Nat × Nat))
    (hlast : ∀ a b w, m.getLast? = some (a, b, w) → ¬(b = s ∧ w = v)) :
    coalesceLeft s v m = (s, m) := by
  unfold coalesceLeft
  cases hL : m.getLast? with
  | none => rfl
  | some r =>
    obtain ⟨a, b, w⟩ := r
    show (if b = s ∧ w = v then (a, m.dropLast) else (s, m)) = (s, m)
    rw [if_neg (hlast a b w hL)]

theorem rangeMapInsert_eval (s e v : Nat) (m0 m : List (Nat × Nat × Nat))
    (hcut : rangeCut s e m0 = m)
    (hse : s < e)
    (hm : ∀ r ∈ m, r.1 < r.2.1 ∧ r.2.1 ≤ s)
    (hlast : ∀ a b w, m.getLast? = some (a, b, w) → ¬(b = s ∧ w = v)) :
    rangeMapInsert s e v m0 = m ++ [(s, e, v)] := by
  unfold rangeMapInsert
  rw [hcut, filter_left_all s m (fun r hr => (hm r hr).2),
    filter_right_none e m (fun r hr => by
      have := hm r hr
      omega),
    coalesceLeft_stay s v m hlast]
  rfl

theorem ends_le_of_chain (y : Nat × Nat × Nat) (ys : List (Nat × Nat × Nat)) :
    ∀ xs, List.Chain' rangesRel (xs ++ y :: ys) →
      (∀ r ∈ xs, r.1 < r.2.1) → ∀ r ∈ xs, r.2.1 ≤ y.1 := by
  intro xs
  induction xs with
  | nil =>
    intro _ _ r hr
    exact absurd hr (List.not_mem_nil r)
  | cons x xs ih =>
    intro hch hne r hr
    rw [List.cons_append, List.chain'_cons'] at hch
    obtain ⟨hhead, htail⟩ := hch
    rcases List.mem_cons.mp hr with rfl | hr'
    · cases xs with
      | nil => exact (hhead y (by simp)).1
      | cons x' xs' =>
        have h1 := (hhead x' (by simp)).1
        have h2 := hne x' (by simp)
        have h3 := ih htail (fun q hq => hne q (List.mem_cons_of_mem _ hq)) x'
          (by simp)
        omega
    · exact ih htail (fun q hq => hne q (List.mem_cons_of_mem _ hq)) r hr'

theorem rebuild_aux :
    ∀ (tail front : List (Nat × Nat × Nat)),
      (∀ r ∈ front ++ tail, r.1 < r.2.1) →
      List.Chain' rangesRel (front ++ tail) →
      tail.foldl (fun m r => rangeMapInsert r.1 r.2.1 r.2.2 m) front =
        front ++ tail := by
  intro tail
  induction tail with
  | nil =>
    intro front _ _
    simp
  | cons r rs ih =>
    intro front hne hch
    have hner : r.1 < r.2.1 := hne r (by simp)
    have hstep : rangeMapInsert r.1 r.2.1 r.2.2 front = front ++ [r] := by
      apply rangeMapInsert_eval _ _ _ front front _ hner
      · intro q hq
        refine ⟨hne q (List.mem_append_left _ hq), ?_⟩
        exact ends_le_of_chain r rs front hch
          (fun q' hq' => hne q' (List.mem_append_left _ hq')) q hq
      · intro a b w hL hbad
        have hrel := (List.chain'_append.mp hch).2.2 (a, b, w)
          (by rw [hL]; rfl) r (by rfl)
        exact hrel.2 hbad.1 (by rw [hbad.2])
      · exact rangeCut_all_left _ _ _ hner (fun q hq => by
          refine ⟨hne q (List.mem_append_left _ hq), ?_⟩
          exact ends_le_of_chain r rs front hch
            (fun q' hq' => hne q' (List.mem_append_left _ hq')) q hq)
    rw [List.foldl_cons, hstep]
    have hassoc : front ++ [r] ++ rs = front ++ r :: rs := by simp
    rw [ih (front ++ [r]) (by rw [hassoc]; exact hne) (by rw [hassoc]; exact hch),
      hassoc]

theorem zip_all_refl (l : List (Nat × Nat × Nat)) :
    (l.zip l).all (fun p => decide (p.1 = p.2)) = true := by
  induction l with
  | nil => rfl
  | cons r rest ih => simp [List.zip_cons_cons, List.all_cons, ih]

theorem find?_append_isSome {α} (p : α → Bool) (l1 l2 : List α) :
    ((l1 ++ l2).find? p).isSome = ((l1.find? p).isSome || (l2.find? p).isSome) := by
  induction l1 with
  | nil => simp
  | cons a l ih =>
    cases hp : p a with
    | true => simp [List.find?_cons, hp]
    | false => simp [List.find?_cons, hp, ih]

theorem rangesFind_append_isSome (m1 m2 : List (Nat × Nat × Nat)) (i : Nat) :
    (rangesFind (m1 ++ m2) i).isSome =
      ((rangesFind m1 i).isSome || (rangesFind m2 i).isSome) := by
  unfold rangesFind
  simp [find?_append_isSome]

theorem rangesFind_singleton_isSome (a b w i : Nat) (h1 : a ≤ i) (h2 : i < b) :
    (rangesFind [(a, b, w)] i).isSome = true := by
  unfold rangesFind
  rw [List.find?_cons_of_pos]
  · rfl
  · simp only [decide_eq_true_eq]
    exact ⟨h1, h2⟩

/-! ## Chain-walk lemmas -/

/-- Snapshot-level parent invariant: any fragment readable through
MmapGuard::fragment has parent pointer 0 or one strictly below its index. -/
def snapOK (snap : List ColorFragment) : Prop :=
  ∀ i f, fragment snap i = some f →
    f.parent_pointer = 0 ∨ f.parent_pointer < i

theorem snapOK_of_PPInv (frags : List ColorFragment) (h : PPInv frags) :
    snapOK (TABLE_MAGIC :: frags) := by
  intro i f hf
  unfold fragment at hf
  by_cases h0 : i = 0
  · rw [if_pos h0] at hf
    exact absurd hf (by simp)
  · rw [if_neg h0] at hf
    obtain ⟨j, rfl⟩ := Nat.exists_eq_succ_of_ne_zero h0
    have hget : frags.get? j = some f := hf
    have hlt : j < frags.length := by
      rcases List.get?_eq_some.mp hget with ⟨hj, _⟩
      exact hj
    have hD : frags.getD j TABLE_MAGIC = f := by
      simp [List.getD, ← List.get?_eq_getElem?, hget]
    have := h j hlt
    rw [hD] at this
    exact this

theorem chainF_zero (snap : List ColorFragment) (fuel : Nat) :
    chainF snap fuel 0 = [] := by
  cases fuel with
  | zero => rfl
  | succ fl => simp [chainF, fragment]

theorem chainF_cons_shape (snap : List ColorFragment) (fuel idx : Nat) :
    chainF snap fuel idx = [] ∨
      ∃ f t, fragment snap idx = some f ∧ chainF snap fuel idx = idx :: t := by
  cases fuel with
  | zero => exact Or.inl rfl
  | succ fl =>
    cases hF : fragment snap idx with
    | none => exact Or.inl (by simp [chainF, hF])
    | some f =>
      exact Or.inr ⟨f, chainF snap fl f.parent_pointer, rfl, by simp [chainF, hF]⟩

theorem chainF_chain (snap : List ColorFragment) (hOK : snapOK snap) :
    ∀ fuel idx, List.Chain' (fun a b => b < a) (chainF snap fuel idx) := by
  intro fuel
  induction fuel with
  | zero =>
    intro idx
    simp [chainF]
  | succ fl ih =>
    intro idx
    cases hF : fragment snap idx with
    | none => simp [chainF, hF]
    | some f =>
      simp only [chainF, hF]
      rw [List.chain'_cons']
      refine ⟨?_, ih f.parent_pointer⟩
      intro b hb
      rcases chainF_cons_shape snap fl f.parent_pointer with he | ⟨f', t, hf', ht⟩
      · rw [he] at hb
        simp at hb
      · rw [ht] at hb
        simp only [List.head?_cons, Option.mem_def, Option.some.injEq] at hb
        subst hb
        have hppne : f.parent_pointer ≠ 0 := by
          intro h0
          rw [h0] at hf'
          simp [fragment] at hf'
        rcases hOK idx f hF with h0 | hlt
        · exact absurd h0 hppne
        · exact hlt

theorem chainF_mem (snap : List ColorFragment) :
    ∀ fuel idx i, i ∈ chainF snap fuel idx → 1 ≤ i ∧ i < snap.length := by
  intro fuel
  induction fuel with
  | zero =>
    intro idx i h
    simp [chainF] at h
  | succ fl ih =>
    intro idx i h
    cases hF : fragment snap idx with
    | none =>
      simp [chainF, hF] at h
    | some f =>
      simp only [chainF, hF] at h
      rcases List.mem_cons.mp h with rfl | h'
      · have hne : i ≠ 0 := by
          intro h0
          rw [h0] at hF
          simp [fragment] at hF
        have hget : snap.get? i = some f := by
          unfold fragment get_fragment at hF
          rw [if_neg hne] at hF
          exact hF
        have hlt : i < snap.length := by
          rcases List.get?_eq_some.mp hget with ⟨hj, _⟩
          exact hj
        exact ⟨Nat.one_le_iff_ne_zero.mpr hne, hlt⟩
      · exact ih _ _ h'

theorem chainF_stable (snap : List ColorFragment) (hOK : snapOK snap) :
    ∀ idx fuel, idx ≤ fuel → chainF snap fuel idx = class_chain snap idx := by
  intro idx
  induction idx using Nat.strong_induction_on with
  | _ idx ih =>
    intro fuel hfuel
    cases idx with
    | zero => rw [chainF_zero, class_chain, chainF_zero]
    | succ k =>
      cases fuel with
      | zero => omega
      | succ fl =>
        unfold class_chain
        cases hF : fragment snap (k + 1) with
        | none => simp [chainF, hF]
        | some f =>
          simp only [chainF, hF]
          congr 1
          rcases hOK (k + 1) f hF with h0 | hlt
          · rw [h0, chainF_zero, chainF_zero]
          · rw [ih f.parent_pointer hlt fl (by omega),
              ih f.parent_pointer hlt k (by omega)]

theorem class_chain_head (snap : List ColorFragment) (idx : Nat)
    (h1 : 1 ≤ idx) (h2 : idx < snap.length) :
    ∃ t, class_chain snap idx = idx :: t := by
  unfold class_chain
  cases idx with
  | zero => omega
  | succ k =>
    have hF : fragment snap (k + 1) = some (snap.get ⟨k + 1, h2⟩) := by
      unfold fragment get_fragment
      rw [if_neg (Nat.succ_ne_zero k)]
      exact List.get?_eq_get h2
    refine ⟨chainF snap k (snap.get ⟨k + 1, h2⟩).parent_pointer, ?_⟩
    simp [chainF, hF]

/-! ## Write-path lemmas -/

theorem PPInv_append (frags : List ColorFragment) (f : ColorFragment)
    (hpp : PPInv frags)
    (hf : f.parent_pointer = 0 ∨ f.parent_pointer < frags.length + 1) :
    PPInv (frags ++ [f]) := by
  intro i hi
  rw [List.length_append, List.length_cons, List.length_nil] at hi
  rcases Nat.lt_or_ge i frags.length with h | h
  · rw [List.getD_append _ _ _ _ h]
    exact hpp i h
  · have hEq : i = frags.length := by omega
    subst hEq
    rw [List.getD_append_right _ _ _ _ h, Nat.sub_self]
    rcases hf with h0 | hlt
    · exact Or.inl h0
    · exact Or.inr hlt

theorem runCmds_spec (cmds : List Cmd) : ∀ (s : TState),
    (runCmds s cmds).2.gens = s.gens ∧
    s.head ≤ (runCmds s cmds).2.head ∧
    (s.head = s.frags.length + 1 →
      ((runCmds s cmds).2.head = (runCmds s cmds).2.frags.length + 1 ∧
        (PPInv s.frags → PPInv (runCmds s cmds).2.frags))) := by
  induction cmds with
  | nil =>
    intro s
    exact ⟨rfl, Nat.le_refl _, fun h => ⟨h, fun hp => hp⟩⟩
  | cons c cs ih =>
    intro s
    cases c with
    | newClass col =>
      simp only [runCmds, runCmd, new_color_class, write_fragment]
      have h1 := ih { frags := s.frags ++ [{ parent_pointer := 0, color := col }],
                      head := s.head + 1, gens := s.gens }
      refine ⟨h1.1, Nat.le_trans (Nat.le_succ _) h1.2.1, fun hlen => ?_⟩
      have hlen1 : s.head + 1 =
          (s.frags ++ [({ parent_pointer := 0, color := col } : ColorFragment)]).length + 1 := by
        rw [List.length_append, List.length_cons, List.length_nil]
        omega
      refine ⟨(h1.2.2 hlen1).1, fun hpp => (h1.2.2 hlen1).2 ?_⟩
      exact PPInv_append s.frags _ hpp (Or.inl rfl)
    | fork p col =>
      simp only [runCmds, runCmd, fork_color_class, head_fragment_index,
        write_fragment]
      by_cases hp : p < s.head
      · simp only [if_pos hp]
        have h1 := ih { frags := s.frags ++ [{ parent_pointer := p, color := col }],
                        head := s.head + 1, gens := s.gens }
        refine ⟨h1.1, Nat.le_trans (Nat.le_succ _) h1.2.1, fun hlen => ?_⟩
        have hlen1 : s.head + 1 =
            (s.frags ++ [({ parent_pointer := p, color := col } : ColorFragment)]).length + 1 := by
          rw [List.length_append, List.length_cons, List.length_nil]
          omega
        refine ⟨(h1.2.2 hlen1).1, fun hpp => (h1.2.2 hlen1).2 ?_⟩
        exact PPInv_append s.frags _ hpp (Or.inr (by rw [← hlen]; exact hp))
      · simp only [if_neg hp]
        exact ih s
    | extend p col =>
      simp only [runCmds, runCmd, extend_color_class, head_fragment_index,
        write_fragment]
      by_cases hp : p < s.head
      · simp only [if_pos hp]
        have h1 := ih { frags := s.frags ++ [{ parent_pointer := p, color := col }],
                        head := s.head + 1, gens := s.gens }
        refine ⟨h1.1, Nat.le_trans (Nat.le_succ _) h1.2.1, fun hlen => ?_⟩
        have hlen1 : s.head + 1 =
            (s.frags ++ [({ parent_pointer := p, color := col } : ColorFragment)]).length + 1 := by
          rw [List.length_append, List.length_cons, List.length_nil]
          omega
        refine ⟨(h1.2.2 hlen1).1, fun hpp => (h1.2.2 hlen1).2 ?_⟩
        exact PPInv_append s.frags _ hpp (Or.inr (by rw [← hlen]; exact hp))
      · simp only [if_neg hp]
        exact ih s

theorem finish_generation_carrier (r : List (Except CTErr Nat) × TState) :
    (finish_generation r).1.frags = r.2.frags ∧
      (finish_generation r).1.head = r.2.head := by
  unfold finish_generation
  cases r.2.gens.end_current_generation_at r.2.head with
  | error e => exact ⟨rfl, rfl⟩
  | ok g2 => exact ⟨rfl, rfl⟩

theorem with_generation_pp (s : TState) (gen : Nat) (cmds : List Cmd)
    (hlen : s.head = s.frags.length + 1) (hpp : PPInv s.frags) :
    (with_generation s gen cmds).1.head =
        (with_generation s gen cmds).1.frags.length + 1 ∧
      PPInv (with_generation s gen cmds).1.frags := by
  unfold with_generation
  cases hst : s.gens.start_new_generation_at s.head gen with
  | error e => exact ⟨hlen, hpp⟩
  | ok g1 =>
    have hm := runCmds_spec cmds { frags := s.frags, head := s.head, gens := g1 }
    have hmfacts := hm.2.2 hlen
    have hc := finish_generation_carrier
      (runCmds { frags := s.frags, head := s.head, gens := g1 } cmds)
    rw [hc.1, hc.2]
    exact ⟨hmfacts.1, hmfacts.2 hpp⟩

theorem mem_of_getLast?_eq {α : Type} {l : List α} {a : α}
    (h : l.getLast? = some a) : a ∈ l := by
  have hmem : a ∈ l.getLast? := by rw [h]; rfl
  rcases List.mem_getLast?_eq_getLast hmem with ⟨hne, heq⟩
  rw [heq]
  exact List.getLast_mem hne

theorem with_generation_of_error (s : TState) (gen : Nat) (cmds : List Cmd)
    (e : CTErr)
    (h : s.gens.start_new_generation_at s.head gen = Except.error e) :
    with_generation s gen cmds = (s, Except.error e) := by
  unfold with_generation
  rw [h]

theorem with_generation_of_ok (s : TState) (gen : Nat) (cmds : List Cmd)
    (g1 : Generations)
    (h : s.gens.start_new_generation_at s.head gen = Except.ok g1) :
    with_generation s gen cmds =
      finish_generation
        (runCmds { frags := s.frags, head := s.head, gens := g1 } cmds) := by
  unfold with_generation
  rw [h]

theorem start_from_none_error (m : List (Nat × Nat × Nat)) (gen head : Nat)
    (hh : head ≠ 0) :
    Generations.start_new_generation_at ⟨m, GenerationState.None⟩ head gen =
      Except.error CTErr.InvalidGenerationState := by
  simp only [Generations.start_new_generation_at]
  rw [if_pos hh]

theorem start_from_ended_ok (m : List (Nat × Nat × Nat)) (last gen head : Nat)
    (hgt : last < gen) (hends : ∀ r ∈ m, r.2.1 ≤ head) :
    Generations.start_new_generation_at ⟨m, GenerationState.Ended last⟩ head gen =
      Except.ok ⟨rangeMapInsert head (head + 1) gen m,
        GenerationState.InProgress gen head⟩ := by
  have hguard : optAny (fun l => decide (head < l))
      (Generations.last_range_end ⟨m, GenerationState.Ended last⟩) = false := by
    unfold Generations.last_range_end
    cases hL : m.getLast? with
    | none => rfl
    | some r =>
      obtain ⟨a, b, w⟩ := r
      have hb := hends _ (mem_of_getLast?_eq hL)
      simp only [Option.map_some', optAny]
      simp only at hb
      simp only [decide_eq_false_iff_not]
      omega
  simp only [Generations.start_new_generation_at]
  rw [if_pos hgt, hguard]
  rfl

theorem end_current_eval (m' : List (Nat × Nat × Nat)) (gen h0 head : Nat) :
    Generations.end_current_generation_at
        ⟨m', GenerationState.InProgress gen h0⟩ head =
      Except.ok (if h0 < head then
          (⟨rangeMapInsert h0 head gen m', GenerationState.Ended gen⟩ : Generations)
        else ⟨rangeCut h0 (h0 + 1) m', GenerationState.Ended gen⟩) := by
  by_cases hlt : h0 < head
  · simp only [Generations.end_current_generation_at]
    rw [if_pos hlt, if_pos hlt]
  · simp only [Generations.end_current_generation_at]
    rw [if_neg hlt, if_neg hlt]

theorem finish_generation_eval (r : List (Except CTErr Nat) × TState)
    (gen h0 : Nat) (m' : List (Nat × Nat × Nat))
    (hg : r.2.gens = ⟨m', GenerationState.InProgress gen h0⟩) :
    finish_generation r =
      ({ frags := r.2.frags, head := r.2.head,
         gens := if h0 < r.2.head then
             (⟨rangeMapInsert h0 r.2.head gen m',
               GenerationState.Ended gen⟩ : Generations)
           else ⟨rangeCut h0 (h0 + 1) m', GenerationState.Ended gen⟩ },
        Except.ok r.1) := by
  unfold finish_generation
  rw [hg, end_current_eval]


theorem with_generation_WF (s : TState) (gen : Nat) (cmds : List Cmd)
    (hWF : WF s) : WF (with_generation s gen cmds).1 := by
  obtain ⟨sf, sh, m, st⟩ := s
  have hlen : sh = sf.length + 1 := hWF.1
  have hpp : PPInv sf := hWF.2.1
  have hrw : rangesWF sh m := hWF.2.2.1
  have hcov : covWF sh m := hWF.2.2.2.2
  cases st with
  | None =>
    have hne : m = [] ∧ sh = 1 := hWF.2.2.2.1
    rw [with_generation_of_error _ gen cmds _
      (start_from_none_error m gen sh (by omega))]
    exact hWF
  | InProgress a b => exact (hWF.2.2.2.1 : False).elim
  | Ended last =>
    have hvals : ∀ r ∈ m, r.2.2 ≤ last := hWF.2.2.2.1
    by_cases hgt : last < gen
    · have hrm : ∀ r ∈ m, r.1 < r.2.1 ∧ r.2.1 ≤ sh := hrw.1
      have hstart := start_from_ended_ok m last gen sh hgt
        (fun r hr => (hrm r hr).2)
      rw [with_generation_of_ok _ gen cmds _ hstart]
      have hlastne : ∀ a b w, m.getLast? = some (a, b, w) →
          ¬(b = sh ∧ w = gen) := by
        intro a b w hL hbad
        have hv := hvals _ (mem_of_getLast?_eq hL)
        simp only at hv
        omega
      have hins : rangeMapInsert sh (sh + 1) gen m = m ++ [(sh, sh + 1, gen)] :=
        rangeMapInsert_eval sh (sh + 1) gen m m
          (rangeCut_all_left sh (sh + 1) m (Nat.lt_succ_self sh) hrm)
          (Nat.lt_succ_self sh) hrm hlastne
      show WF (finish_generation (runCmds
        ⟨sf, sh, ⟨rangeMapInsert sh (sh + 1) gen m,
          GenerationState.InProgress gen sh⟩⟩ cmds)).1
      set mid : TState :=
        ⟨sf, sh, ⟨rangeMapInsert sh (sh + 1) gen m,
          GenerationState.InProgress gen sh⟩⟩ with hmid
      obtain ⟨hg2, hhead_le, hrest⟩ := runCmds_spec cmds mid
      obtain ⟨hlen2, hpp2'⟩ := hrest hlen
      have hpp2 := hpp2' hpp
      have hle : sh ≤ (runCmds mid cmds).2.head := hhead_le
      have hgens2 : (runCmds mid cmds).2.gens =
          ⟨m ++ [(sh, sh + 1, gen)], GenerationState.InProgress gen sh⟩ := by
        rw [hg2]
        show (⟨rangeMapInsert sh (sh + 1) gen m,
          GenerationState.InProgress gen sh⟩ : Generations) = _
        rw [hins]
      rw [finish_generation_eval (runCmds mid cmds) gen sh
        (m ++ [(sh, sh + 1, gen)]) hgens2]
      by_cases hlt : sh < (runCmds mid cmds).2.head
      · rw [if_pos hlt]
        have hcut2 : rangeCut sh (runCmds mid cmds).2.head
            (m ++ [(sh, sh + 1, gen)]) = m := by
          rw [rangeCut_append,
            rangeCut_all_left sh _ m hlt hrm,
            rangeCut_inner sh _ sh (sh + 1) gen (Nat.le_refl sh) (by omega)]
          simp
        have hwiden := rangeMapInsert_eval sh (runCmds mid cmds).2.head gen
          (m ++ [(sh, sh + 1, gen)]) m hcut2 hlt hrm hlastne
        rw [hwiden]
        refine ⟨hlen2, hpp2, ⟨?_, ?_⟩, ?_, ?_⟩
        · intro r hr
          rcases List.mem_append.mp hr with h | h
          · exact ⟨(hrm r h).1, Nat.le_trans (hrm r h).2 (Nat.le_of_lt hlt)⟩
          · have hr' := List.mem_singleton.mp h
            subst hr'
            exact ⟨hlt, Nat.le_refl _⟩
        · refine List.chain'_append.mpr ⟨hrw.2, List.chain'_singleton _, ?_⟩
          intro x hx y hy
          simp only [List.head?_cons, Option.mem_def, Option.some.injEq] at hy
          subst hy
          have hxm := mem_of_getLast?_eq (Option.mem_def.mp hx)
          refine ⟨(hrm x hxm).2, fun _ => ?_⟩
          have hvx := hvals x hxm
          simp only
          omega
        · intro r hr
          rcases List.mem_append.mp hr with h | h
          · have := hvals r h
            omega
          · have hr' := List.mem_singleton.mp h
            subst hr'
            exact Nat.le_refl _
        · intro i hi h1i
          rw [rangesFind_append_isSome]
          rcases Nat.lt_or_ge i sh with h | h
          · rw [hcov i (by omega) h1i]
            simp
          · rw [rangesFind_singleton_isSome sh _ gen i h hi]
            simp
      · rw [if_neg hlt]
        have heq : (runCmds mid cmds).2.head = sh := by omega
        have hrem : rangeCut sh (sh + 1) (m ++ [(sh, sh + 1, gen)]) = m := by
          rw [rangeCut_append,
            rangeCut_all_left sh (sh + 1) m (Nat.lt_succ_self sh) hrm,
            rangeCut_inner sh (sh + 1) sh (sh + 1) gen (Nat.le_refl sh)
              (Nat.le_refl _)]
          simp
        rw [hrem]
        refine ⟨hlen2, hpp2, ⟨?_, hrw.2⟩, ?_, ?_⟩
        · intro r hr
          refine ⟨(hrm r hr).1, ?_⟩
          rw [heq]
          exact (hrm r hr).2
        · intro r hr
          have := hvals r hr
          omega
        · intro i hi h1i
          rw [heq] at hi
          exact hcov i hi h1i
    · have hstart : Generations.start_new_generation_at
          ⟨m, GenerationState.Ended last⟩ sh gen =
          Except.error (CTErr.InvalidGeneration gen) := by
        simp only [Generations.start_new_generation_at]
        rw [if_neg hgt]
      rw [with_generation_of_error _ gen cmds _ hstart]
      exact hWF

/-! ## Reachability -/

/-- The state-changing operations of the public API: with_generation with a
closure of class operations; sync and map do not change the in-memory
state. -/
inductive Op where
  | withGen : Nat → List Cmd → Op
  | syncOp : Op
  | mapOp : Op

def applyOp (s : TState) : Op → TState
  | Op.withGen gen cmds => (with_generation s gen cmds).1
  | Op.syncOp => s
  | Op.mapOp => s

/-- The store state after a sequence of operations on a freshly created
table. -/
def reach (ops : List Op) : TState :=
  ops.foldl applyOp ColorTable.new

theorem foldl_WF (ops : List Op) : ∀ (s : TState), WF s →
    WF (ops.foldl applyOp s) := by
  induction ops with
  | nil => intro s h; exact h
  | cons op rest ih =>
    intro s h
    apply ih
    cases op with
    | withGen gen cmds => exact with_generation_WF s gen cmds h
    | syncOp => exact h
    | mapOp => exact h

theorem WF_new : WF ColorTable.new := by decide

theorem reach_WF (ops : List Op) : WF (reach ops) :=
  foldl_WF ops ColorTable.new WF_new

/-! ## Round-trip lemmas -/

theorem decode_encode (g : Generations)
    (hne : ∀ r ∈ g.ranges, r.1 < r.2.1)
    (hch : List.Chain' rangesRel g.ranges) :
    Generations.decode (Generations.encode g) = Except.ok g := by
  obtain ⟨m, st⟩ := g
  simp only at hne hch
  simp only [Generations.encode, Generations.decode]
  rw [rebuild_aux m [] (by simpa using hne) (by simpa using hch),
    List.nil_append, zip_all_refl]
  rfl

theorem load_sync (s : TState) (hWF : WF s) :
    load (sync s).1 (sync s).2 = Except.ok s := by
  obtain ⟨sf, sh, m, st⟩ := s
  have hlen : sh = sf.length + 1 := hWF.1
  have hrw : rangesWF sh m := hWF.2.2.1
  simp only [sync, mmapFragments, load]
  rw [if_pos trivial,
    decode_encode ⟨m, st⟩ (fun r hr => (hrw.1 r hr).1) hrw.2]
  simp [hlen]

/-! ## Claims -/

/-- C1 (code bug in the source): starting the first generation on a freshly
created store fails.  ColorTable::new sets head = 1, but the Fresh (None)
branch of Generations::start_new_generation_at demands head = 0, so
with_generation(0, f) returns InvalidGenerationState without running the
closure, and new_class(0x0123ABCD) never returns ColorId(1) — contradicting
the spec (start requires Fresh and head = 1) and the repository's own tests
(tests/table.rs::new_one and every other integration test). -/
theorem c1_fresh_start_fails :
    with_generation ColorTable.new 0 [Cmd.newClass 0x0123ABCD] =
      (ColorTable.new, Except.error CTErr.InvalidGenerationState) ∧
    Generations.new.start_new_generation_at 1 0 =
      Except.error CTErr.InvalidGenerationState :=
  ⟨rfl, rfl⟩

/-- C2 counterexample: appends attempted while a mapping over exampleTable
is live do not fail — the write path has no mapping check and the error
type has no ResourceBusy variant — instead each append returns Ok with the
new index 4 and writes the record; the record is invisible through the live
snapshot, whose length was fixed at map time. -/
theorem c2_counterexample :
    new_color_class exampleTable 5 =
      Except.ok (4, ⟨exampleTable.frags ++ [⟨0, 5⟩], 5, exampleTable.gens⟩) ∧
    fork_color_class exampleTable 3 6 =
      Except.ok (4, ⟨exampleTable.frags ++ [⟨3, 6⟩], 5, exampleTable.gens⟩) ∧
    extend_color_class exampleTable 3 7 =
      Except.ok (4, ⟨exampleTable.frags ++ [⟨3, 7⟩], 5, exampleTable.gens⟩) ∧
    fragment (mmapFragments exampleTable) 4 = Option.none :=
  ⟨rfl, rfl, rfl, rfl⟩

/-- C2 amended: for every store and every fragment append performed while a
ReadView over it is live, the append succeeds (no ResourceBusy failure
exists): the record is written at index head, head increments, and the new
fragment is not visible through the mapping taken before the append. -/
theorem c2_appends_succeed_while_mapped (s : TState) (hWF : WF s)
    (p c : Nat) (hp : p < s.head) :
    new_color_class s c =
      Except.ok (s.head, ⟨s.frags ++ [⟨0, c⟩], s.head + 1, s.gens⟩) ∧
    fork_color_class s p c =
      Except.ok (s.head, ⟨s.frags ++ [⟨p, c⟩], s.head + 1, s.gens⟩) ∧
    extend_color_class s p c =
      Except.ok (s.head, ⟨s.frags ++ [⟨p, c⟩], s.head + 1, s.gens⟩) ∧
    fragment (mmapFragments s) s.head = Option.none := by
  refine ⟨rfl, ?_, ?_, ?_⟩
  · unfold fork_color_class head_fragment_index
    rw [if_pos hp]
    rfl
  · unfold extend_color_class head_fragment_index
    rw [if_pos hp]
    rfl
  · unfold fragment get_fragment mmapFragments
    rw [if_neg (by rw [hWF.1]; omega : ¬ s.head = 0)]
    apply List.get?_eq_none.mpr
    rw [List.length_cons, hWF.1]

theorem c2_appends_succeed_while_mapped_witness :
    new_color_class exampleTable 9 =
      Except.ok (4, ⟨exampleTable.frags ++ [⟨0, 9⟩], 5, exampleTable.gens⟩) :=
  (c2_appends_succeed_while_mapped exampleTable (by decide) 1 9 (by decide)).1

/-- C3: for a store in which every started generation has ended and a class
id valid at map time, the class iterator starts at the head fragment id,
visits strictly decreasing fragment indices (reverse chronological order,
most recent fragment first), and yields exactly one (color, generation)
pair per visited fragment. -/
theorem c3_iter_reverse_chronological (s : TState) (hWF : WF s) (id : Nat)
    (h1 : 1 ≤ id) (h2 : id < s.head) :
    (color_class s.head (mmapFragments s) id).head? = some id ∧
    List.Chain' (fun a b => b < a) (color_class s.head (mmapFragments s) id) ∧
    class_pairs s.gens s.head (mmapFragments s) id =
      (color_class s.head (mmapFragments s) id).map
        (fun i => (((fragment (mmapFragments s) i).map
          ColorFragment.color).getD 0, s.gens.find i)) := by
  have hOK := snapOK_of_PPInv s.frags hWF.2.1
  have hsl : (mmapFragments s).length = s.head := by
    simp [mmapFragments, hWF.1]
  refine ⟨?_, ?_, rfl⟩
  · have hcc : color_class s.head (mmapFragments s) id =
        class_chain (mmapFragments s) id := by
      unfold color_class head_fragment_index
      rw [if_pos h2]
      rfl
    rw [hcc]
    obtain ⟨t, ht⟩ := class_chain_head (mmapFragments s) id h1 (by omega)
    rw [ht]
    rfl
  · unfold color_class class_chain
    exact chainF_chain (mmapFragments s) hOK _ _

theorem c3_iter_reverse_chronological_witness :
    (color_class exampleTable.head (mmapFragments exampleTable) 3).head? =
      some 3 :=
  (c3_iter_reverse_chronological exampleTable (by decide) 3 (by decide)
    (by decide)).1

/-- C4: the registry covers every written fragment.  The invariant WF holds
of the fresh store, is preserved by every operation, and yields: in every
state reached by a sequence of operations (each started generation having
been ended by with_generation itself), every index 1 ≤ i < head has
registry.find(i) defined; consequently the chain iterator's generation
lookup never hits its missing-generation failure branch. -/
theorem c4_registry_covers :
    WF ColorTable.new ∧
    (∀ s gen cmds, WF s → WF (with_generation s gen cmds).1) ∧
    (∀ ops i, 1 ≤ i → i < (reach ops).head →
      ((reach ops).gens.find i).isSome) ∧
    (∀ s, WF s → ∀ id i, i ∈ color_class s.head (mmapFragments s) id →
      (s.gens.find i).isSome) := by
  refine ⟨WF_new, fun s gen cmds h => with_generation_WF s gen cmds h,
    ?_, ?_⟩
  · intro ops i h1 h2
    exact (reach_WF ops).2.2.2.2 i h2 h1
  · intro s hWF id i hmem
    have hb := chainF_mem (mmapFragments s)
      ((head_fragment_index s.head id).getD 0)
      ((head_fragment_index s.head id).getD 0) i hmem
    have hsl : (mmapFragments s).length = s.head := by
      simp [mmapFragments, hWF.1]
    exact hWF.2.2.2.2 i (by omega) hb.1

theorem c4_registry_covers_witness :
    WF (with_generation exampleTable 2 [Cmd.newClass 7]).1 :=
  c4_registry_covers.2.1 exampleTable 2 [Cmd.newClass 7] (by decide)

/-- C5: parents precede children.  The fresh store satisfies the
parent-pointer invariant (every fragment has parent_pointer 0 or strictly
below its own index), each operation preserves it — fork and extend only
accept a parent id strictly below the current head and the appended
fragment receives the current head as its index — and hence it holds in
every state reached by a sequence of operations. -/
theorem c5_parent_precedes :
    PPInv ColorTable.new.frags ∧
    (∀ s gen cmds, s.head = s.frags.length + 1 → PPInv s.frags →
      (with_generation s gen cmds).1.head =
          (with_generation s gen cmds).1.frags.length + 1 ∧
        PPInv (with_generation s gen cmds).1.frags) ∧
    (∀ ops, PPInv (reach ops).frags) := by
  refine ⟨?_, with_generation_pp, ?_⟩
  · intro i hi
    simp [ColorTable.new] at hi
  · intro ops
    exact (reach_WF ops).2.1

theorem c5_parent_precedes_witness :
    PPInv (with_generation exampleTable 2 [Cmd.fork 1 5]).1.frags :=
  (c5_parent_precedes.2.1 exampleTable 2 [Cmd.fork 1 5] (by decide)
    (by decide)).2

/-- C6: from a closed registry, starting a generation with a stale number
g ≤ last fails with InvalidGeneration(g) (the early return leaves the
ranges and state untouched, which the functional embedding renders by
returning no new registry), and a successful start from Closed(last) is
possible only when g > last. -/
theorem c6_stale_generation_rejected (m : List (Nat × Nat × Nat))
    (last gen head : Nat) :
    (gen ≤ last →
      Generations.start_new_generation_at ⟨m, GenerationState.Ended last⟩
          head gen = Except.error (CTErr.InvalidGeneration gen)) ∧
    (∀ g1, Generations.start_new_generation_at ⟨m, GenerationState.Ended last⟩
        head gen = Except.ok g1 → last < gen) := by
  constructor
  · intro hle
    simp only [Generations.start_new_generation_at]
    rw [if_neg (by omega)]
  · intro g1 h
    by_cases hgt : last < gen
    · exact hgt
    · simp only [Generations.start_new_generation_at] at h
      rw [if_neg hgt] at h
      simp at h

theorem c6_stale_generation_rejected_witness :
    Generations.start_new_generation_at
        ⟨[(1, 3, 0)], GenerationState.Ended 1⟩ 3 1 =
      Except.error (CTErr.InvalidGeneration 1) :=
  (c6_stale_generation_rejected [(1, 3, 0)] 1 1 3).1 (Nat.le_refl 1)

/-- C7: round-trip persistence.  For a store with all generations ended,
sync followed by load of the same directory reproduces the store exactly,
so iterating any ColorId over the reloaded store yields the same
(color, generation) sequence as over the original. -/
theorem c7_round_trip (s : TState) (hWF : WF s) :
    load (sync s).1 (sync s).2 = Except.ok s ∧
    ∀ s', load (sync s).1 (sync s).2 = Except.ok s' →
      ∀ id, class_pairs s'.gens s'.head (mmapFragments s') id =
        class_pairs s.gens s.head (mmapFragments s) id := by
  have h := load_sync s hWF
  refine ⟨h, ?_⟩
  intro s' h' id
  rw [h] at h'
  injection h' with he
  rw [← he]

theorem c7_round_trip_witness :
    load (sync exampleTable).1 (sync exampleTable).2 =
      Except.ok exampleTable :=
  (c7_round_trip exampleTable (by decide)).1

/-- C8: the read path degrades invalid ids to the empty iterator rather than
an error: for a mapping taken at head, color_class yields the empty chain
whenever id = 0 or id is at least the mapping-time head (even if the table's
current head has grown past it), and for any other id the iterator starts at
fragment id. -/
theorem c8_read_path_degrades (s : TState) (hWF : WF s)
    (curHead id : Nat) (hcur : s.head ≤ curHead) :
    ((id = 0 ∨ s.head ≤ id) →
      color_class curHead (mmapFragments s) id = []) ∧
    (1 ≤ id → id < s.head →
      (color_class curHead (mmapFragments s) id).head? = some id) := by
  have hsl : (mmapFragments s).length = s.head := by
    simp [mmapFragments, hWF.1]
  have hpos : 1 ≤ s.head := by
    rw [hWF.1]
    omega
  constructor
  · intro hid
    rcases hid with rfl | hge
    · unfold color_class head_fragment_index
      by_cases h0 : (0 : Nat) < curHead
      · rw [if_pos h0]
        exact chainF_zero _ 0
      · rw [if_neg h0]
        exact chainF_zero _ 0
    · unfold color_class head_fragment_index
      by_cases hc : id < curHead
      · rw [if_pos hc]
        show class_chain (mmapFragments s) id = []
        obtain ⟨k, rfl⟩ := Nat.exists_eq_succ_of_ne_zero
          (by omega : id ≠ 0)
        have hF : fragment (mmapFragments s) (k + 1) = Option.none := by
          unfold fragment get_fragment
          rw [if_neg (Nat.succ_ne_zero k)]
          apply List.get?_eq_none.mpr
          omega
        show chainF (mmapFragments s) (k + 1) (k + 1) = []
        simp [chainF, hF]
      · rw [if_neg hc]
        exact chainF_zero _ 0
  · intro h1 h2
    unfold color_class head_fragment_index
    rw [if_pos (by omega : id < curHead)]
    show (class_chain (mmapFragments s) id).head? = some id
    obtain ⟨t, ht⟩ := class_chain_head (mmapFragments s) id h1 (by omega)
    rw [ht]
    rfl

theorem c8_read_path_degrades_witness :
    color_class 4 (mmapFragments exampleTable) 0 = [] ∧
    (color_class 4 (mmapFragments exampleTable) 3).head? = some 3 :=
  ⟨(c8_read_path_degrades exampleTable (by decide) 4 0 (by decide)).1
      (Or.inl rfl),
    (c8_read_path_degrades exampleTable (by decide) 4 3 (by decide)).2
      (by decide) (by decide)⟩

/-- C9: fork_color_class and extend_color_class are extensionally equal as
state transformers: for every store, parent id and color, both perform the
same validation (parent below head, else InvalidColorId), append the same
record (parent_pointer = parent, color), and return the same new index. -/
theorem c9_fork_extend_equal (s : TState) (parent color : Nat) :
    fork_color_class s parent color = extend_color_class s parent color :=
  rfl

/-- C10 (implicit): the null class id is accepted as a fork/extend parent —
whenever head is at least 1 (always, after create), fork and extend with
parent ColorId(0) do not fail, append a fragment with parent_pointer = 0,
and coincide exactly with new_color_class. -/
theorem c10_null_parent (s : TState) (c : Nat) (h : 1 ≤ s.head) :
    fork_color_class s 0 c = new_color_class s c ∧
    extend_color_class s 0 c = new_color_class s c ∧
    fork_color_class s 0 c =
      Except.ok (s.head, ⟨s.frags ++ [⟨0, c⟩], s.head + 1, s.gens⟩) := by
  have h' : 0 < s.head := h
  unfold fork_color_class extend_color_class new_color_class
    head_fragment_index
  rw [if_pos h']
  exact ⟨rfl, rfl, rfl⟩

theorem c10_null_parent_witness :
    fork_color_class exampleTable 0 11 = new_color_class exampleTable 11 :=
  (c10_null_parent exampleTable 11 (by decide)).1
